import Mathlib

/-!
Shallow embedding of the Ingestor repository's core data structures
(`src/orderbook.rs`, `src/tradeslog.rs`) and proofs about them.

Modelling conventions:
* `rust_decimal::Decimal` is modelled as `ℚ` (the spec fixes prices and
  quantities to be exact rationals with bounded scale; all the operations
  used here — `+`, `-`, `*`, comparison, and division by a non-zero
  divisor — are exact on `Decimal` inputs in the repository's value
  ranges).
* `std::time::Instant` is modelled as a rational timestamp in seconds;
  `Duration` as a rational number of seconds.
* `BTreeMap<Decimal, Decimal>` is modelled as an association list sorted
  strictly ascending by key; `iter()` is list traversal,
  `keys().next()` is `head?`, `keys().next_back()` is `getLast?`.
* `VecDeque` is a list whose head is the front (oldest element);
  `push_back` appends, `pop_front` takes the tail.
-/

namespace Ingestor

/-- A trade record (`tradeslog.rs`, `struct Trade`). -/
structure Trade where
  price : ℚ
  quantity : ℚ
  timestamp : ℕ
  is_buyer_maker : Bool
deriving DecidableEq, Repr

/-- Error type of the trades-log window queries (`tradeslog.rs`,
`enum TradesLogError`). -/
inductive TradesLogError where
  | InsufficientTrades
  | ZeroVolume
  | InvalidWindowSize
deriving DecidableEq, Repr

/-- Lazily refreshed statistics block (`tradeslog.rs`, `struct CachedStats`). -/
structure CachedStats where
  trade_imbalance : Option ℚ
  vwap_total : Option ℚ
  price_change : Option ℚ
  last_price : Option ℚ
  avg_trade_size : Option ℚ
  signed_count_momentum : ℤ
deriving DecidableEq, Repr

/-- `CachedStats::default()`. -/
def CachedStats.default : CachedStats :=
  ⟨none, none, none, none, none, 0⟩

/-- The bounded trades ring with running aggregates (`tradeslog.rs`,
`struct TradesLog`).  The deque `trades` is listed oldest-first. -/
structure TradesLog where
  trades : List Trade
  max_len : ℕ
  trade_count : ℕ
  buy_volume : ℚ
  sell_volume : ℚ
  stats_dirty : Bool
  cached_stats : CachedStats
deriving DecidableEq, Repr

/-- `TradesLog::new(max_len)`. -/
def TradesLog.new (max_len : ℕ) : TradesLog :=
  ⟨[], max_len, 0, 0, 0, true, CachedStats.default⟩

/-- `TradesLog::insert_trade` (`tradeslog.rs` lines 120–154): evict the
oldest trade when at capacity (adjusting volumes and momentum), otherwise
bump `trade_count`; then add the new trade's contribution and append it.
When `max_len = 0` the source calls `pop_front().unwrap()` on an empty
deque and panics; that unreachable branch (for `max_len ≥ 1`) is modelled
as returning the log unchanged before the append. -/
def insert_trade (log : TradesLog) (t : Trade) : TradesLog :=
  let log1 :=
    if log.trades.length = log.max_len then
      match log.trades with
      | [] => log
      | removed :: rest =>
        if removed.is_buyer_maker then
          { log with
              trades := rest,
              sell_volume := log.sell_volume - removed.quantity,
              cached_stats := { log.cached_stats with
                signed_count_momentum := log.cached_stats.signed_count_momentum + 1 } }
        else
          { log with
              trades := rest,
              buy_volume := log.buy_volume - removed.quantity,
              cached_stats := { log.cached_stats with
                signed_count_momentum := log.cached_stats.signed_count_momentum - 1 } }
    else { log with trade_count := log.trade_count + 1 }
  let log2 :=
    if t.is_buyer_maker then
      { log1 with
          sell_volume := log1.sell_volume + t.quantity,
          cached_stats := { log1.cached_stats with
            signed_count_momentum := log1.cached_stats.signed_count_momentum - 1 } }
    else
      { log1 with
          buy_volume := log1.buy_volume + t.quantity,
          cached_stats := { log1.cached_stats with
            signed_count_momentum := log1.cached_stats.signed_count_momentum + 1 } }
  { log2 with stats_dirty := true, trades := log2.trades ++ [t] }

/-- Fold a list of trades into a log by repeated `insert_trade`. -/
def insert_all (log : TradesLog) (ts : List Trade) : TradesLog :=
  ts.foldl insert_trade log

/-- `TradesLog::last_price` (`trades.back().map(|t| t.price)`). -/
def last_price (log : TradesLog) : Option ℚ :=
  log.trades.getLast?.map Trade.price

/-- `TradesLog::update_cached_stats` (`tradeslog.rs` lines 80–118):
no-op unless `stats_dirty`; otherwise refresh the cached block from the
running aggregates and clear the flag. -/
def update_cached_stats (log : TradesLog) : TradesLog :=
  if !log.stats_dirty then log
  else
    let total_volume := log.buy_volume + log.sell_volume
    let ti := if total_volume > 0 then some (log.buy_volume / total_volume) else none
    let vt :=
      if total_volume > 0 then
        let lp := (log.trades.getLast?.map Trade.price).getD 0
        some ((log.buy_volume + log.sell_volume) * lp / total_volume)
      else none
    let pc :=
      match log.trades.length, log.cached_stats.last_price with
      | _, none => none
      | 0, _ => none
      | _ + 1, some prev =>
        (log.trades.getLast?.map fun cur => cur.price - prev)
    let lp := log.trades.getLast?.map Trade.price
    let ats :=
      if log.trade_count > 0 then some (total_volume / (log.trade_count : ℚ)) else none
    { log with
        stats_dirty := false,
        cached_stats :=
          { trade_imbalance := ti, vwap_total := vt, price_change := pc,
            last_price := lp, avg_trade_size := ats,
            signed_count_momentum := log.cached_stats.signed_count_momentum } }

/-- `TradesLog::vwap(window)` (`tradeslog.rs` lines 164–186): error on a
zero window, error when fewer than `window` trades are resident, then
fold `Σ p·q` and `Σ q` over the newest `window` trades and divide,
erroring on zero volume. -/
def vwap (log : TradesLog) (window : ℕ) : Except TradesLogError ℚ :=
  if window = 0 then .error .InvalidWindowSize
  else if log.trades.length < window then .error .InsufficientTrades
  else
    let sums := (log.trades.reverse.take window).foldl
      (fun (acc : ℚ × ℚ) t => (acc.1 + t.price * t.quantity, acc.2 + t.quantity))
      (0, 0)
    if sums.2 = 0 then .error .ZeroVolume
    else .ok (sums.1 / sums.2)

/-- `TradesLog::aggressor_volume_ratio(n)` (`tradeslog.rs` lines
203–226): error on `n = 0` or an empty log; fold buyer-taker and
seller-taker volume over the newest `min(n, resident)` trades; error on
zero total, else return the buyer share. -/
def aggressor_volume_ratio (log : TradesLog) (n : ℕ) : Except TradesLogError ℚ :=
  if n = 0 then .error .InvalidWindowSize
  else if log.trades = [] then .error .InsufficientTrades
  else
    let vols := (log.trades.reverse.take n).foldl
      (fun (acc : ℚ × ℚ) t =>
        if t.is_buyer_maker then (acc.1, acc.2 + t.quantity)
        else (acc.1 + t.quantity, acc.2))
      (0, 0)
    let total := vols.1 + vols.2
    if total = 0 then .error .ZeroVolume
    else .ok (vols.1 / total)

/-- Order-flow event (`orderbook.rs`, `enum OrderFlowEvent`). -/
inductive OrderFlowEvent where
  | BidOrder (qty : ℚ)
  | AskOrder (qty : ℚ)
  | BidCancel
  | AskCancel
deriving DecidableEq, Repr

/-- Rolling window of timestamped order-flow events (`orderbook.rs`,
`struct RollingFlowTracker`).  The deque `events` is oldest-first;
timestamps are seconds on the monotone clock. -/
structure RollingFlowTracker where
  events : List (ℚ × OrderFlowEvent)
  window : ℚ
  cancel_penalty : ℚ
  min_pressure : ℚ
deriving DecidableEq, Repr

/-- `RollingFlowTracker::new(window_secs)`. -/
def RollingFlowTracker.new (window_secs : ℕ) : RollingFlowTracker :=
  ⟨[], (window_secs : ℚ), 35/100, 5/2⟩

/-- `RollingFlowTracker::prune_old(now)` (`orderbook.rs` lines 42–51):
pop events from the front while their time is before `now − window`. -/
def prune_old (now : ℚ) (tr : RollingFlowTracker) : RollingFlowTracker :=
  { tr with events := tr.events.dropWhile (fun te => te.1 < now - tr.window) }

/-- `RollingFlowTracker::add_event(event)` (`orderbook.rs` lines 36–40):
prune, then push `(now, event)` at the back.  `now` (the source's
`Instant::now()`) is passed explicitly. -/
def add_event (now : ℚ) (event : OrderFlowEvent) (tr : RollingFlowTracker) :
    RollingFlowTracker :=
  { tr with events := (prune_old now tr).events ++ [(now, event)] }

/-- `RollingFlowTracker::imbalance` (`orderbook.rs` lines 53–79): fold
bid and ask pressure over the resident events with the age weight
`1 − min(age/window, 1)`, then return
`(some ((bid−ask)/total) when total ≥ min_pressure, total)`.
The source computes the weight in `f64` and converts with
`Decimal::from_f64(..).unwrap_or(1)`; since the weight always lies in
`[0, 1]` the conversion succeeds, and it is modelled exactly. -/
def imbalance (now : ℚ) (tr : RollingFlowTracker) : Option ℚ × ℚ :=
  let pressures := tr.events.foldl
    (fun (acc : ℚ × ℚ) te =>
      let age := now - te.1
      let weight := 1 - min (age / tr.window) 1
      match te.2 with
      | .BidOrder qty => (acc.1 + qty * weight, acc.2)
      | .AskOrder qty => (acc.1, acc.2 + qty * weight)
      | .BidCancel => (acc.1 - tr.cancel_penalty * weight, acc.2)
      | .AskCancel => (acc.1, acc.2 - tr.cancel_penalty * weight))
    (0, 0)
  let total_pressure := pressures.1 + pressures.2
  (if total_pressure ≥ tr.min_pressure then
    some ((pressures.1 - pressures.2) / total_pressure)
   else none,
   total_pressure)

/-- Sorted-association-list model of `BTreeMap::insert`: keys stay
strictly ascending, an existing binding for the key is replaced. -/
def insertSorted (p q : ℚ) : List (ℚ × ℚ) → List (ℚ × ℚ)
  | [] => [(p, q)]
  | (k, v) :: rest =>
    if p < k then (p, q) :: (k, v) :: rest
    else if p = k then (p, q) :: rest
    else (k, v) :: insertSorted p q rest

/-- Sorted-association-list model of `BTreeMap::remove` (drops the
binding for the key, if any). -/
def eraseKey (p : ℚ) : List (ℚ × ℚ) → List (ℚ × ℚ)
  | [] => []
  | (k, v) :: rest => if p = k then rest else (k, v) :: eraseKey p rest

/-- Association-list model of `BTreeMap::get`. -/
def lookupKey (p : ℚ) : List (ℚ × ℚ) → Option ℚ
  | [] => none
  | (k, v) :: rest => if p = k then some v else lookupKey p rest

/-- Association-list model of `BTreeMap::contains_key`. -/
def containsKey (p : ℚ) (l : List (ℚ × ℚ)) : Bool :=
  (lookupKey p l).isSome

/-- The two-sided order book with cached best levels (`orderbook.rs`,
`struct OrderBook`).  Both maps are ascending-by-price association
lists. -/
structure OrderBook where
  bids : List (ℚ × ℚ)
  asks : List (ℚ × ℚ)
  best_bid : Option ℚ
  best_ask : Option ℚ
  flow_tracker : RollingFlowTracker
deriving DecidableEq, Repr

/-- `OrderBook::new()`. -/
def OrderBook.new : OrderBook :=
  ⟨[], [], none, none, RollingFlowTracker.new 10⟩

/-- `OrderBook::update_best_bid_ask` (`orderbook.rs` lines 195–198):
`best_bid := bids.keys().next_back()`, `best_ask := asks.keys().next()`. -/
def update_best_bid_ask (book : OrderBook) : OrderBook :=
  { book with
      best_bid := book.bids.getLast?.map Prod.fst,
      best_ask := book.asks.head?.map Prod.fst }

/-- `OrderBook::apply_snapshot` (`orderbook.rs` lines 131–148): clear
both maps, insert every input pair with `price ≥ 0 ∧ quantity ≥ 0`
(note: `≥`, so zero quantities are inserted), recompute cached bests. -/
def apply_snapshot (book : OrderBook) (bids asks : List (ℚ × ℚ)) : OrderBook :=
  let bmap := bids.foldl
    (fun m pq => if pq.1 ≥ 0 ∧ pq.2 ≥ 0 then insertSorted pq.1 pq.2 m else m) []
  let amap := asks.foldl
    (fun m pq => if pq.1 ≥ 0 ∧ pq.2 ≥ 0 then insertSorted pq.1 pq.2 m else m) []
  update_best_bid_ask { book with bids := bmap, asks := amap }

/-- One bid delta of `OrderBook::apply_deltas` (`orderbook.rs` lines
152–170): `qty = 0` on a present price emits `BidCancel` and removes the
level; `qty = 0` on an absent price is skipped entirely (`continue`);
non-zero `qty` emits `BidOrder qty` and inserts — there is no sign
check. -/
def apply_delta_bid (now : ℚ) (book : OrderBook) (pq : ℚ × ℚ) : OrderBook :=
  if pq.2 = 0 then
    if containsKey pq.1 book.bids then
      { book with
          bids := eraseKey pq.1 book.bids,
          flow_tracker := add_event now .BidCancel book.flow_tracker }
    else book
  else
    { book with
        bids := insertSorted pq.1 pq.2 book.bids,
        flow_tracker := add_event now (.BidOrder pq.2) book.flow_tracker }

/-- One ask delta of `OrderBook::apply_deltas` (`orderbook.rs` lines
173–190), mirror of the bid case. -/
def apply_delta_ask (now : ℚ) (book : OrderBook) (pq : ℚ × ℚ) : OrderBook :=
  if pq.2 = 0 then
    if containsKey pq.1 book.asks then
      { book with
          asks := eraseKey pq.1 book.asks,
          flow_tracker := add_event now .AskCancel book.flow_tracker }
    else book
  else
    { book with
        asks := insertSorted pq.1 pq.2 book.asks,
        flow_tracker := add_event now (.AskOrder pq.2) book.flow_tracker }

/-- `OrderBook::apply_deltas` (`orderbook.rs` lines 150–193): process
all bid deltas, then all ask deltas, then recompute cached bests.  The
source samples `Instant::now()` once per emitted event inside
`add_event`; all events of one call are modelled with the single
timestamp `now` of that call. -/
def apply_deltas (now : ℚ) (book : OrderBook) (bids asks : List (ℚ × ℚ)) :
    OrderBook :=
  update_best_bid_ask ((asks.foldl (apply_delta_ask now)
    (bids.foldl (apply_delta_bid now) book)))

/-- `OrderBook::cumulative_volume_up_to` (`orderbook.rs` lines 273–279):
iterate the chosen side in the map's ascending-key order, `take_while`
the predicate (`p ≥ price` for bids, `p ≤ price` for asks) holds, and
sum the quantities. -/
def cumulative_volume_up_to (book : OrderBook) (price : ℚ) (is_bid : Bool) : ℚ :=
  let map := if is_bid then book.bids else book.asks
  ((map.takeWhile (fun pq => if is_bid then pq.1 ≥ price else pq.1 ≤ price)).map
    Prod.snd).sum

/-- Modelled from the spec (§4.A): the cumulative-volume walk as the
spec words it — "walks best-inward while the predicate `price ≥ p`
(bids) or `price ≤ p` (asks) holds".  Best-inward order is descending
price for bids (so the ascending map is reversed) and ascending price
for asks. -/
def cumulative_volume_up_to_spec (book : OrderBook) (price : ℚ) (is_bid : Bool) : ℚ :=
  if is_bid then
    ((book.bids.reverse.takeWhile (fun pq => pq.1 ≥ price)).map Prod.snd).sum
  else
    ((book.asks.takeWhile (fun pq => pq.1 ≤ price)).map Prod.snd).sum

/-- A mutating order-book call: either `apply_snapshot` or
`apply_deltas` (with the call's clock reading). -/
inductive BookOp where
  | snapshot (bids asks : List (ℚ × ℚ))
  | deltas (now : ℚ) (bids asks : List (ℚ × ℚ))
deriving DecidableEq, Repr

/-- Run a sequence of mutating order-book calls. -/
def runOps (book : OrderBook) (ops : List BookOp) : OrderBook :=
  ops.foldl
    (fun b op =>
      match op with
      | .snapshot bids asks => apply_snapshot b bids asks
      | .deltas now bids asks => apply_deltas now b bids asks)
    book

/-- Strict key order on map entries (the `BTreeMap` key invariant). -/
def keyLT (a b : ℚ × ℚ) : Prop := a.1 < b.1

/-- The flow-tracker freshness invariant of the spec: every resident
event is at most `window` old at time `now`. -/
def residentOk (now : ℚ) (tr : RollingFlowTracker) : Prop :=
  ∀ te ∈ tr.events, now - te.1 ≤ tr.window

/-- The age weight as the spec words it: `max (0, 1 − (now−t)/window)`. -/
def age_weight (now window t : ℚ) : ℚ :=
  max 0 (1 - (now - t) / window)

/-- Contribution of one event to `bid_pressure` under weight `w`
(`+qty·w` for `BidOrder`, `−cancel_penalty·w` for `BidCancel`). -/
def bid_contribution (cp w : ℚ) : OrderFlowEvent → ℚ
  | .BidOrder qty => qty * w
  | .BidCancel => -(cp * w)
  | _ => 0

/-- Contribution of one event to `ask_pressure` under weight `w`. -/
def ask_contribution (cp w : ℚ) : OrderFlowEvent → ℚ
  | .AskOrder qty => qty * w
  | .AskCancel => -(cp * w)
  | _ => 0

/-- Spec-side bid pressure: sum of age-weighted bid contributions over
the resident events. -/
def bid_pressure (now : ℚ) (tr : RollingFlowTracker) : ℚ :=
  (tr.events.map
    (fun te => bid_contribution tr.cancel_penalty (age_weight now tr.window te.1) te.2)).sum

/-- Spec-side ask pressure: sum of age-weighted ask contributions over
the resident events. -/
def ask_pressure (now : ℚ) (tr : RollingFlowTracker) : ℚ :=
  (tr.events.map
    (fun te => ask_contribution tr.cancel_penalty (age_weight now tr.window te.1) te.2)).sum

/-! ### Association-list lemmas -/

theorem mem_insertSorted {pq : ℚ × ℚ} {p q : ℚ} :
    ∀ {l : List (ℚ × ℚ)}, pq ∈ insertSorted p q l → pq = (p, q) ∨ pq ∈ l := by
  intro l
  induction l with
  | nil => simp [insertSorted]
  | cons kv rest ih =>
    obtain ⟨k, v⟩ := kv
    simp only [insertSorted]
    split
    · intro h
      rcases List.mem_cons.mp h with h | h
      · exact Or.inl h
      · exact Or.inr h
    · split
      · intro h
        rcases List.mem_cons.mp h with h | h
        · exact Or.inl h
        · exact Or.inr (List.mem_cons_of_mem _ h)
      · intro h
        rcases List.mem_cons.mp h with h | h
        · exact Or.inr (h ▸ List.mem_cons_self _ _)
        · rcases ih h with h | h
          · exact Or.inl h
          · exact Or.inr (List.mem_cons_of_mem _ h)

theorem pairwise_insertSorted {p q : ℚ} :
    ∀ {l : List (ℚ × ℚ)}, l.Pairwise keyLT → (insertSorted p q l).Pairwise keyLT := by
  intro l
  induction l with
  | nil => simp [insertSorted, keyLT]
  | cons kv rest ih =>
    obtain ⟨k, v⟩ := kv
    intro hl
    rw [List.pairwise_cons] at hl
    obtain ⟨hk, hrest⟩ := hl
    simp only [insertSorted]
    split
    · rename_i hpk
      rw [List.pairwise_cons]
      refine ⟨?_, List.pairwise_cons.mpr ⟨hk, hrest⟩⟩
      intro x hx
      rcases List.mem_cons.mp hx with h | h
      · subst h; exact hpk
      · exact lt_trans hpk (hk x h)
    · split
      · rename_i hpk
        subst hpk
        exact List.pairwise_cons.mpr ⟨hk, hrest⟩
      · rename_i hlt heq
        rw [List.pairwise_cons]
        refine ⟨?_, ih hrest⟩
        intro x hx
        rcases mem_insertSorted hx with h | h
        · subst h
          simp only [keyLT]
          rcases lt_trichotomy p k with h | h | h
          · exact absurd h hlt
          · exact absurd h heq
          · exact h
        · exact hk x h

theorem eraseKey_sublist (p : ℚ) : ∀ (l : List (ℚ × ℚ)), (eraseKey p l).Sublist l := by
  intro l
  induction l with
  | nil => simp [eraseKey]
  | cons kv rest ih =>
    obtain ⟨k, v⟩ := kv
    simp only [eraseKey]
    split
    · exact List.sublist_cons_self _ _
    · exact List.Sublist.cons₂ _ ih

theorem pairwise_eraseKey {p : ℚ} {l : List (ℚ × ℚ)} (h : l.Pairwise keyLT) :
    (eraseKey p l).Pairwise keyLT :=
  h.sublist (eraseKey_sublist p l)

theorem lookupKey_insertSorted_self (p q : ℚ) :
    ∀ (l : List (ℚ × ℚ)), lookupKey p (insertSorted p q l) = some q := by
  intro l
  induction l with
  | nil => simp [insertSorted, lookupKey]
  | cons kv rest ih =>
    obtain ⟨k, v⟩ := kv
    simp only [insertSorted]
    split
    · simp [lookupKey]
    · split
      · simp [lookupKey]
      · rename_i hlt heq
        simp only [lookupKey]
        rw [if_neg heq]
        exact ih

theorem lookupKey_eq_none_of_forall {p : ℚ} :
    ∀ {l : List (ℚ × ℚ)}, (∀ x ∈ l, x.1 ≠ p) → lookupKey p l = none := by
  intro l
  induction l with
  | nil => intro _; rfl
  | cons kv rest ih =>
    obtain ⟨k, v⟩ := kv
    intro h
    simp only [lookupKey]
    rw [if_neg (fun hpk => (h (k, v) (List.mem_cons_self _ _)) hpk.symm)]
    exact ih (fun x hx => h x (List.mem_cons_of_mem _ hx))

theorem lookupKey_eraseKey_self {p : ℚ} :
    ∀ {l : List (ℚ × ℚ)}, l.Pairwise keyLT → lookupKey p (eraseKey p l) = none := by
  intro l
  induction l with
  | nil => intro _; rfl
  | cons kv rest ih =>
    obtain ⟨k, v⟩ := kv
    intro h
    rw [List.pairwise_cons] at h
    obtain ⟨hk, hrest⟩ := h
    simp only [eraseKey]
    split
    · rename_i hpk
      subst hpk
      exact lookupKey_eq_none_of_forall (fun x hx => ne_of_gt (hk x hx))
    · rename_i hpk
      simp only [lookupKey]
      rw [if_neg hpk]
      exact ih hrest

theorem pairwise_foldl_filtered_insert
    (P : ℚ × ℚ → Prop) [DecidablePred P] :
    ∀ (l : List (ℚ × ℚ)) (acc : List (ℚ × ℚ)), acc.Pairwise keyLT →
      (l.foldl (fun m pq => if P pq then insertSorted pq.1 pq.2 m else m) acc).Pairwise keyLT := by
  intro l
  induction l with
  | nil => intro acc hacc; exact hacc
  | cons pq rest ih =>
    intro acc hacc
    simp only [List.foldl_cons]
    apply ih
    split
    · exact pairwise_insertSorted hacc
    · exact hacc

theorem mem_foldl_filtered_insert
    (P : ℚ × ℚ → Prop) [DecidablePred P] :
    ∀ (l : List (ℚ × ℚ)) (acc : List (ℚ × ℚ)),
      (∀ x ∈ acc, P x) →
      ∀ x ∈ l.foldl (fun m pq => if P pq then insertSorted pq.1 pq.2 m else m) acc, P x := by
  intro l
  induction l with
  | nil => intro acc hacc; exact hacc
  | cons pq rest ih =>
    intro acc hacc
    simp only [List.foldl_cons]
    apply ih
    split
    · rename_i hP
      intro x hx
      rcases mem_insertSorted hx with h | h
      · subst h; exact hP
      · exact hacc x h
    · exact hacc

/-! ### Claim C1 -/

/-- C1, counterexample.  The claim "every quantity stored in the bids
and asks maps afterwards is strictly positive: apply_snapshot … does not
insert pairs with zero quantity, and apply_deltas silently rejects pairs
with negative price or negative quantity" is false on the code:
`apply_snapshot` keeps pairs with `quantity ≥ 0`, so it stores the
zero-quantity pair `(1, 0)`, and `apply_deltas` performs no sign check,
so it stores the negative-quantity pair `(2, −1)`. -/
theorem claim_C1_counterexample :
    (apply_snapshot OrderBook.new [(1, 0)] []).bids = [(1, 0)] ∧
    ¬ (∀ pq ∈ (apply_snapshot OrderBook.new [(1, 0)] []).bids, 0 < pq.2) ∧
    (apply_deltas 0 OrderBook.new [(2, -1)] []).bids = [(2, -1)] := by
  refine ⟨by decide, ?_, by decide⟩
  intro h
  have := h (1, 0) (by decide)
  exact absurd this (by decide)

/-- C1, amended: `apply_snapshot` rejects pairs with negative price or
negative quantity but does insert zero-quantity pairs, so every stored
pair after a snapshot has non-negative price and quantity (not strictly
positive); `apply_deltas` rejects nothing — a zero quantity removes the
level and any non-zero quantity, negative price or quantity included, is
stored. -/
theorem claim_C1_amended :
    (∀ (book : OrderBook) (bids asks : List (ℚ × ℚ)),
      (∀ pq ∈ (apply_snapshot book bids asks).bids, 0 ≤ pq.1 ∧ 0 ≤ pq.2) ∧
      (∀ pq ∈ (apply_snapshot book bids asks).asks, 0 ≤ pq.1 ∧ 0 ≤ pq.2)) ∧
    (∀ (now : ℚ) (book : OrderBook) (p q : ℚ), q ≠ 0 →
      lookupKey p ((apply_deltas now book [(p, q)] []).bids) = some q ∧
      lookupKey p ((apply_deltas now book [] [(p, q)]).asks) = some q) := by
  constructor
  · intro book bids asks
    constructor
    · intro pq hpq
      exact mem_foldl_filtered_insert (fun pq => pq.1 ≥ 0 ∧ pq.2 ≥ 0) bids []
        (by intro x hx; cases hx) pq hpq
    · intro pq hpq
      exact mem_foldl_filtered_insert (fun pq => pq.1 ≥ 0 ∧ pq.2 ≥ 0) asks []
        (by intro x hx; cases hx) pq hpq
  · intro now book p q hq
    constructor
    · simp only [apply_deltas, List.foldl_cons, List.foldl_nil, apply_delta_bid,
        update_best_bid_ask, if_neg hq]
      exact lookupKey_insertSorted_self p q book.bids
    · simp only [apply_deltas, List.foldl_cons, List.foldl_nil, apply_delta_ask,
        update_best_bid_ask, if_neg hq]
      exact lookupKey_insertSorted_self p q book.asks

/-- C1, witness: the amended theorem applied at concrete inputs — a
snapshot containing a negative-quantity pair (which is filtered out, all
survivors non-negative) and a delta with quantity `−7` (which is
stored). -/
theorem claim_C1_witness :
    (∀ pq ∈ (apply_snapshot OrderBook.new [(1, -2), (3, 4)] []).bids, 0 ≤ pq.1 ∧ 0 ≤ pq.2) ∧
    lookupKey 5 ((apply_deltas 0 OrderBook.new [(5, -7)] []).bids) = some (-7) :=
  ⟨(claim_C1_amended.1 OrderBook.new [(1, -2), (3, 4)] []).1,
   (claim_C1_amended.2 0 OrderBook.new 5 (-7) (by norm_num)).1⟩

/-! ### Claim C5 -/

theorem one_sub_min_eq_max (x : ℚ) : 1 - min x 1 = max 0 (1 - x) := by
  rcases le_total x 1 with h | h
  · rw [min_eq_left h, max_eq_right (by linarith)]
  · rw [min_eq_right h, max_eq_left (by linarith)]
    norm_num

theorem imbalance_pressures (now : ℚ) (tr : RollingFlowTracker) :
    imbalance now tr =
      (if bid_pressure now tr + ask_pressure now tr ≥ tr.min_pressure then
        some ((bid_pressure now tr - ask_pressure now tr) /
          (bid_pressure now tr + ask_pressure now tr))
       else none,
       bid_pressure now tr + ask_pressure now tr) := by
  have key : ∀ (l : List (ℚ × OrderFlowEvent)) (acc : ℚ × ℚ),
      l.foldl
        (fun (acc : ℚ × ℚ) te =>
          let age := now - te.1
          let weight := 1 - min (age / tr.window) 1
          match te.2 with
          | .BidOrder qty => (acc.1 + qty * weight, acc.2)
          | .AskOrder qty => (acc.1, acc.2 + qty * weight)
          | .BidCancel => (acc.1 - tr.cancel_penalty * weight, acc.2)
          | .AskCancel => (acc.1, acc.2 - tr.cancel_penalty * weight)) acc
      = (acc.1 + (l.map
            (fun te => bid_contribution tr.cancel_penalty
              (age_weight now tr.window te.1) te.2)).sum,
         acc.2 + (l.map
            (fun te => ask_contribution tr.cancel_penalty
              (age_weight now tr.window te.1) te.2)).sum) := by
    intro l
    induction l with
    | nil => intro acc; simp
    | cons te rest ih =>
      intro acc
      obtain ⟨t, e⟩ := te
      simp only [List.foldl_cons, List.map_cons, List.sum_cons]
      rw [ih]
      have hw : age_weight now tr.window t = 1 - min ((now - t) / tr.window) 1 :=
        (one_sub_min_eq_max _).symm
      cases e <;>
        simp only [bid_contribution, ask_contribution, hw] <;>
        refine Prod.ext ?_ ?_ <;> dsimp <;> ring
  rw [imbalance, key, bid_pressure, ask_pressure]
  dsimp only
  rw [zero_add, zero_add]

/-- C5, confirmed: `imbalance` weights each resident event by
`max (0, 1 − (now−t)/window)` — the code's `1 − min(age/window, 1)` is
that same weight — accumulates `bid_pressure` (`+qty·w` for `BidOrder`,
`−cancel_penalty·w` for `BidCancel`) and `ask_pressure` symmetrically,
and with `total = bid_pressure + ask_pressure` returns
`(some ((bid−ask)/total), total)` exactly when `total ≥ min_pressure`
(boundary inclusive) and `(none, total)` otherwise. -/
theorem claim_C5 (now : ℚ) (tr : RollingFlowTracker) :
    imbalance now tr =
      (if bid_pressure now tr + ask_pressure now tr ≥ tr.min_pressure then
        some ((bid_pressure now tr - ask_pressure now tr) /
          (bid_pressure now tr + ask_pressure now tr))
       else none,
       bid_pressure now tr + ask_pressure now tr) :=
  imbalance_pressures now tr

/-! ### Claim C6 -/

theorem mem_dropWhile_lt {c : ℚ} :
    ∀ {l : List (ℚ × OrderFlowEvent)},
      l.Pairwise (fun a b => a.1 ≤ b.1) →
      ∀ x ∈ l.dropWhile (fun te => te.1 < c), c ≤ x.1 := by
  intro l
  induction l with
  | nil => intro _ x hx; simp [List.dropWhile] at hx
  | cons a rest ih =>
    intro h x hx
    rw [List.pairwise_cons] at h
    obtain ⟨ha, hrest⟩ := h
    rw [List.dropWhile_cons] at hx
    split at hx
    · exact ih hrest x hx
    · rename_i hcond
      simp only [decide_eq_true_eq] at hcond
      rcases List.mem_cons.mp hx with h | h
      · subst h; linarith
      · have := ha x h
        linarith

/-- C6, counterexample.  The claim "after any imbalance call, every
event resident in the flow tracker's queue satisfies
`now − instant ≤ window`" is false on the code: `imbalance` borrows the
tracker immutably (`fn imbalance(&self)`) and never prunes, so after
`add_event` at time 0 (window 10) the event is still resident when
`imbalance` runs at time 20, with age `20 > 10`.  (`imbalance` itself
returns `(none, 0)` there — the stale event is weighted 0 but stays
resident.) -/
theorem claim_C6_counterexample :
    imbalance 20 (add_event 0 (.BidOrder 1) (RollingFlowTracker.new 10)) = (none, 0) ∧
    ¬ residentOk 20 (add_event 0 (.BidOrder 1) (RollingFlowTracker.new 10)) := by
  have hev : (add_event 0 (.BidOrder 1) (RollingFlowTracker.new 10)).events
      = [(0, .BidOrder 1)] := by
    simp [add_event, prune_old, RollingFlowTracker.new]
  have hw : (add_event 0 (.BidOrder 1) (RollingFlowTracker.new 10)).window = 10 := by
    norm_num [add_event, RollingFlowTracker.new]
  have hmp : (add_event 0 (.BidOrder 1) (RollingFlowTracker.new 10)).min_pressure = 5/2 := by
    norm_num [add_event, RollingFlowTracker.new]
  have haw : age_weight 20 10 0 = 0 := by
    rw [age_weight, max_eq_left (by norm_num)]
  constructor
  · rw [imbalance_pressures]
    have hb : bid_pressure 20 (add_event 0 (.BidOrder 1) (RollingFlowTracker.new 10)) = 0 := by
      rw [bid_pressure, hev, hw]
      simp [bid_contribution, haw]
    have ha : ask_pressure 20 (add_event 0 (.BidOrder 1) (RollingFlowTracker.new 10)) = 0 := by
      rw [ask_pressure, hev, hw]
      simp [ask_contribution]
    rw [hb, ha, hmp]
    norm_num
  · intro h
    have := h (0, .BidOrder 1) (by rw [hev]; exact List.mem_singleton.mpr rfl)
    rw [hw] at this
    norm_num at this

/-- C6, amended: after any `add_event` call the invariant holds — on a
time-sorted queue (what the monotone `Instant::now()` clock maintains)
with a non-negative window, every event resident after
`add_event now e` satisfies `now − instant ≤ window`.  The `imbalance`
half of the claim is dropped: `imbalance` takes the tracker immutably
and performs no pruning, so events strictly older than the window can
still be resident when `imbalance` runs. -/
theorem claim_C6_amended (now : ℚ) (e : OrderFlowEvent) (tr : RollingFlowTracker)
    (hsorted : tr.events.Pairwise (fun a b => a.1 ≤ b.1))
    (hwin : 0 ≤ tr.window) :
    residentOk now (add_event now e tr) := by
  intro te hte
  have hww : (add_event now e tr).window = tr.window := rfl
  rw [hww]
  simp only [add_event, prune_old] at hte
  rcases List.mem_append.mp hte with h | h
  · have := mem_dropWhile_lt hsorted te h
    linarith
  · rcases List.mem_singleton.mp h with rfl
    simpa using hwin

/-- C6, witness: the amended theorem at a concrete tracker — an event
added at time 0 into a fresh 10-second tracker, then `add_event` at
time 20; every resident event is then at most 10 seconds old. -/
theorem claim_C6_witness :
    residentOk 20 (add_event 20 .AskCancel (add_event 0 (.BidOrder 1) (RollingFlowTracker.new 10))) := by
  apply claim_C6_amended
  · simp [add_event, prune_old, RollingFlowTracker.new]
  · norm_num [add_event, RollingFlowTracker.new]

/-! ### Claim C2 -/

theorem insert_trade_eq_full_tt {log : TradesLog} {removed : Trade} {rest : List Trade}
    (h : log.trades = removed :: rest) (hfull : log.trades.length = log.max_len)
    (hrm : removed.is_buyer_maker = true) {t : Trade} (htm : t.is_buyer_maker = true) :
    insert_trade log t =
      { trades := rest ++ [t], max_len := log.max_len, trade_count := log.trade_count,
        buy_volume := log.buy_volume,
        sell_volume := log.sell_volume - removed.quantity + t.quantity,
        stats_dirty := true,
        cached_stats := { log.cached_stats with
          signed_count_momentum := log.cached_stats.signed_count_momentum + 1 - 1 } } := by
  have hfull2 : (removed :: rest).length = log.max_len := h ▸ hfull
  simp only [insert_trade, h, if_pos hfull2, hrm, htm, if_true]

theorem insert_trade_eq_full_tf {log : TradesLog} {removed : Trade} {rest : List Trade}
    (h : log.trades = removed :: rest) (hfull : log.trades.length = log.max_len)
    (hrm : removed.is_buyer_maker = true) {t : Trade} (htm : t.is_buyer_maker = false) :
    insert_trade log t =
      { trades := rest ++ [t], max_len := log.max_len, trade_count := log.trade_count,
        buy_volume := log.buy_volume + t.quantity,
        sell_volume := log.sell_volume - removed.quantity,
        stats_dirty := true,
        cached_stats := { log.cached_stats with
          signed_count_momentum := log.cached_stats.signed_count_momentum + 1 + 1 } } := by
  have hfull2 : (removed :: rest).length = log.max_len := h ▸ hfull
  simp only [insert_trade, h, if_pos hfull2, hrm, htm, if_true, Bool.false_eq_true, if_false]

theorem insert_trade_eq_full_ft {log : TradesLog} {removed : Trade} {rest : List Trade}
    (h : log.trades = removed :: rest) (hfull : log.trades.length = log.max_len)
    (hrm : removed.is_buyer_maker = false) {t : Trade} (htm : t.is_buyer_maker = true) :
    insert_trade log t =
      { trades := rest ++ [t], max_len := log.max_len, trade_count := log.trade_count,
        buy_volume := log.buy_volume - removed.quantity,
        sell_volume := log.sell_volume + t.quantity,
        stats_dirty := true,
        cached_stats := { log.cached_stats with
          signed_count_momentum := log.cached_stats.signed_count_momentum - 1 - 1 } } := by
  have hfull2 : (removed :: rest).length = log.max_len := h ▸ hfull
  simp only [insert_trade, h, if_pos hfull2, hrm, htm, if_true, Bool.false_eq_true, if_false]

theorem insert_trade_eq_full_ff {log : TradesLog} {removed : Trade} {rest : List Trade}
    (h : log.trades = removed :: rest) (hfull : log.trades.length = log.max_len)
    (hrm : removed.is_buyer_maker = false) {t : Trade} (htm : t.is_buyer_maker = false) :
    insert_trade log t =
      { trades := rest ++ [t], max_len := log.max_len, trade_count := log.trade_count,
        buy_volume := log.buy_volume - removed.quantity + t.quantity,
        sell_volume := log.sell_volume,
        stats_dirty := true,
        cached_stats := { log.cached_stats with
          signed_count_momentum := log.cached_stats.signed_count_momentum - 1 + 1 } } := by
  have hfull2 : (removed :: rest).length = log.max_len := h ▸ hfull
  simp only [insert_trade, h, if_pos hfull2, hrm, htm, Bool.false_eq_true, if_false]

theorem insert_trade_eq_room_t {log : TradesLog} (hfull : ¬ log.trades.length = log.max_len)
    {t : Trade} (htm : t.is_buyer_maker = true) :
    insert_trade log t =
      { trades := log.trades ++ [t], max_len := log.max_len,
        trade_count := log.trade_count + 1,
        buy_volume := log.buy_volume,
        sell_volume := log.sell_volume + t.quantity,
        stats_dirty := true,
        cached_stats := { log.cached_stats with
          signed_count_momentum := log.cached_stats.signed_count_momentum - 1 } } := by
  simp only [insert_trade, if_neg hfull, htm, if_true]

theorem insert_trade_eq_room_f {log : TradesLog} (hfull : ¬ log.trades.length = log.max_len)
    {t : Trade} (htm : t.is_buyer_maker = false) :
    insert_trade log t =
      { trades := log.trades ++ [t], max_len := log.max_len,
        trade_count := log.trade_count + 1,
        buy_volume := log.buy_volume + t.quantity,
        sell_volume := log.sell_volume,
        stats_dirty := true,
        cached_stats := { log.cached_stats with
          signed_count_momentum := log.cached_stats.signed_count_momentum + 1 } } := by
  simp only [insert_trade, if_neg hfull, htm, Bool.false_eq_true, if_false]

theorem insert_trade_max_len (log : TradesLog) (t : Trade) :
    (insert_trade log t).max_len = log.max_len := by
  by_cases hfull : log.trades.length = log.max_len
  · rcases h : log.trades with _ | ⟨removed, rest⟩
    · simp only [insert_trade, if_pos hfull, h]
      cases htm : t.is_buyer_maker <;> simp [htm] <;> split <;> rfl
    · cases hrm : removed.is_buyer_maker <;> cases htm : t.is_buyer_maker
      · rw [insert_trade_eq_full_ff h hfull hrm htm]
      · rw [insert_trade_eq_full_ft h hfull hrm htm]
      · rw [insert_trade_eq_full_tf h hfull hrm htm]
      · rw [insert_trade_eq_full_tt h hfull hrm htm]
  · cases htm : t.is_buyer_maker
    · rw [insert_trade_eq_room_f hfull htm]
    · rw [insert_trade_eq_room_t hfull htm]

theorem insert_trade_trades_of_full {log : TradesLog} {removed : Trade} {rest : List Trade}
    (h : log.trades = removed :: rest) (hfull : log.trades.length = log.max_len) (t : Trade) :
    (insert_trade log t).trades = rest ++ [t] := by
  cases hrm : removed.is_buyer_maker <;> cases htm : t.is_buyer_maker
  · rw [insert_trade_eq_full_ff h hfull hrm htm]
  · rw [insert_trade_eq_full_ft h hfull hrm htm]
  · rw [insert_trade_eq_full_tf h hfull hrm htm]
  · rw [insert_trade_eq_full_tt h hfull hrm htm]

theorem insert_trade_trades_of_not_full {log : TradesLog}
    (h : ¬ log.trades.length = log.max_len) (t : Trade) :
    (insert_trade log t).trades = log.trades ++ [t] := by
  cases htm : t.is_buyer_maker
  · rw [insert_trade_eq_room_f h htm]
  · rw [insert_trade_eq_room_t h htm]

theorem insert_trade_invariant {log : TradesLog} (t : Trade)
    (hmax : 1 ≤ log.max_len)
    (hlen : log.trades.length ≤ log.max_len)
    (hvol : log.buy_volume + log.sell_volume = (log.trades.map Trade.quantity).sum)
    (hmom : log.cached_stats.signed_count_momentum =
      ((log.trades.filter (fun t => !t.is_buyer_maker)).length : ℤ)
        - ((log.trades.filter (fun t => t.is_buyer_maker)).length : ℤ))
    (hcnt : log.trade_count = log.trades.length) :
    (insert_trade log t).trades.length ≤ log.max_len ∧
    (insert_trade log t).buy_volume + (insert_trade log t).sell_volume
      = ((insert_trade log t).trades.map Trade.quantity).sum ∧
    (insert_trade log t).cached_stats.signed_count_momentum =
      (((insert_trade log t).trades.filter (fun t => !t.is_buyer_maker)).length : ℤ)
        - (((insert_trade log t).trades.filter (fun t => t.is_buyer_maker)).length : ℤ) ∧
    (insert_trade log t).trade_count = (insert_trade log t).trades.length := by
  by_cases hfull : log.trades.length = log.max_len
  · rcases h : log.trades with _ | ⟨removed, rest⟩
    · exfalso
      rw [h] at hfull
      simp at hfull
      omega
    · rw [h] at hvol hmom hcnt
      have hlen2 : rest.length + 1 = log.max_len := by
        rw [h] at hfull
        simpa using hfull
      cases hrm : removed.is_buyer_maker <;> cases htm : t.is_buyer_maker
      · rw [insert_trade_eq_full_ff h hfull hrm htm]
        refine ⟨?_, ?_, ?_, ?_⟩
        · simp
          omega
        · simp at hvol ⊢
          linarith
        · simp [hrm, htm] at hmom ⊢
          omega
        · simp at hcnt ⊢
          omega
      · rw [insert_trade_eq_full_ft h hfull hrm htm]
        refine ⟨?_, ?_, ?_, ?_⟩
        · simp
          omega
        · simp at hvol ⊢
          linarith
        · simp [hrm, htm] at hmom ⊢
          omega
        · simp at hcnt ⊢
          omega
      · rw [insert_trade_eq_full_tf h hfull hrm htm]
        refine ⟨?_, ?_, ?_, ?_⟩
        · simp
          omega
        · simp at hvol ⊢
          linarith
        · simp [hrm, htm] at hmom ⊢
          omega
        · simp at hcnt ⊢
          omega
      · rw [insert_trade_eq_full_tt h hfull hrm htm]
        refine ⟨?_, ?_, ?_, ?_⟩
        · simp
          omega
        · simp at hvol ⊢
          linarith
        · simp [hrm, htm] at hmom ⊢
          omega
        · simp at hcnt ⊢
          omega
  · cases htm : t.is_buyer_maker
    · rw [insert_trade_eq_room_f hfull htm]
      refine ⟨?_, ?_, ?_, ?_⟩
      · simp
        omega
      · simp at hvol ⊢
        linarith
      · simp [htm] at hmom ⊢
        omega
      · simp at hcnt ⊢
        omega
    · rw [insert_trade_eq_room_t hfull htm]
      refine ⟨?_, ?_, ?_, ?_⟩
      · simp
        omega
      · simp at hvol ⊢
        linarith
      · simp [htm] at hmom ⊢
        omega
      · simp at hcnt ⊢
        omega

theorem insert_all_invariant (ts : List Trade) :
    ∀ (log : TradesLog),
      1 ≤ log.max_len →
      log.trades.length ≤ log.max_len →
      log.buy_volume + log.sell_volume = (log.trades.map Trade.quantity).sum →
      log.cached_stats.signed_count_momentum =
        ((log.trades.filter (fun t => !t.is_buyer_maker)).length : ℤ)
          - ((log.trades.filter (fun t => t.is_buyer_maker)).length : ℤ) →
      log.trade_count = log.trades.length →
      (insert_all log ts).max_len = log.max_len ∧
      (insert_all log ts).trades.length ≤ log.max_len ∧
      (insert_all log ts).buy_volume + (insert_all log ts).sell_volume
        = ((insert_all log ts).trades.map Trade.quantity).sum ∧
      (insert_all log ts).cached_stats.signed_count_momentum =
        (((insert_all log ts).trades.filter (fun t => !t.is_buyer_maker)).length : ℤ)
          - (((insert_all log ts).trades.filter (fun t => t.is_buyer_maker)).length : ℤ) ∧
      (insert_all log ts).trade_count = (insert_all log ts).trades.length := by
  induction ts with
  | nil =>
    intro log h1 h2 h3 h4 h5
    exact ⟨rfl, h2, h3, h4, h5⟩
  | cons t ts ih =>
    intro log h1 h2 h3 h4 h5
    have hstep := insert_trade_invariant t h1 h2 h3 h4 h5
    have hml := insert_trade_max_len log t
    have hrec := ih (insert_trade log t) (by rw [hml]; exact h1) (by rw [hml]; exact hstep.1)
      hstep.2.1 hstep.2.2.1 hstep.2.2.2
    simp only [insert_all, List.foldl_cons] at *
    rw [hml] at hrec
    exact hrec

theorem insert_all_trades_drop (N : ℕ) (hN : 1 ≤ N) :
    ∀ ts : List Trade, (insert_all (TradesLog.new N) ts).trades = ts.drop (ts.length - N) := by
  intro ts
  induction ts using List.reverseRecOn with
  | nil => simp [insert_all, TradesLog.new]
  | append_singleton ts t ih =>
    have happ : insert_all (TradesLog.new N) (ts ++ [t])
        = insert_trade (insert_all (TradesLog.new N) ts) t := by
      simp [insert_all, List.foldl_append]
    have hinv := insert_all_invariant ts (TradesLog.new N)
      (by simpa [TradesLog.new] using hN) (by simp [TradesLog.new])
      (by simp [TradesLog.new]) (by simp [TradesLog.new, CachedStats.default])
      (by simp [TradesLog.new])
    have hml : (insert_all (TradesLog.new N) ts).max_len = N := by
      simpa [TradesLog.new] using hinv.1
    rw [happ]
    by_cases hfull : ts.length < N
    · have h0 : ts.length - N = 0 := by omega
      have hlen : ¬ (insert_all (TradesLog.new N) ts).trades.length
          = (insert_all (TradesLog.new N) ts).max_len := by
        rw [hml, ih, h0, List.drop_zero]
        omega
      rw [insert_trade_trades_of_not_full hlen, ih, h0, List.drop_zero]
      have h1 : (ts ++ [t]).length - N = 0 := by
        simp only [List.length_append, List.length_cons, List.length_nil]
        omega
      rw [h1, List.drop_zero]
    · push_neg at hfull
      have hlenN : (insert_all (TradesLog.new N) ts).trades.length = N := by
        rw [ih]
        simp only [List.length_drop]
        omega
      obtain ⟨removed, rest, hcons⟩ :
          ∃ removed rest, (insert_all (TradesLog.new N) ts).trades = removed :: rest := by
        cases hc : (insert_all (TradesLog.new N) ts).trades with
        | nil =>
          exfalso
          rw [hc] at hlenN
          simp at hlenN
          omega
        | cons a l => exact ⟨a, l, rfl⟩
      rw [insert_trade_trades_of_full hcons (by rw [hlenN, hml])]
      have hrest : rest = ts.drop (ts.length - N + 1) := by
        have htail := congrArg List.tail (hcons.symm.trans ih)
        simp only [List.tail_cons, List.tail_drop] at htail
        exact htail
      have hk : (ts ++ [t]).length - N = ts.length - N + 1 := by
        simp only [List.length_append, List.length_cons, List.length_nil]
        omega
      rw [hk, List.drop_append_of_le_length (by omega), hrest]

/-- C2, confirmed: for every capacity `N ≥ 1` and every finite sequence
of `insert_trade` calls into `TradesLog::new(N)`, afterwards the
resident trades are exactly the last `min(total, N)` inserted
(`ts.drop (ts.length − N)`), `buy_volume + sell_volume` equals the sum of
`quantity` over the resident trades, `signed_count_momentum` equals the
number of resident trades with `is_buyer_maker = false` minus the number
with `is_buyer_maker = true`, and
`trade_count = min(total inserts, N) = number of resident trades`. -/
theorem claim_C2 (N : ℕ) (hN : 1 ≤ N) (ts : List Trade) :
    (insert_all (TradesLog.new N) ts).trades = ts.drop (ts.length - N) ∧
    (insert_all (TradesLog.new N) ts).buy_volume + (insert_all (TradesLog.new N) ts).sell_volume
      = ((insert_all (TradesLog.new N) ts).trades.map Trade.quantity).sum ∧
    (insert_all (TradesLog.new N) ts).cached_stats.signed_count_momentum =
      (((insert_all (TradesLog.new N) ts).trades.filter (fun t => !t.is_buyer_maker)).length : ℤ)
        - (((insert_all (TradesLog.new N) ts).trades.filter (fun t => t.is_buyer_maker)).length : ℤ) ∧
    (insert_all (TradesLog.new N) ts).trade_count = min ts.length N ∧
    (insert_all (TradesLog.new N) ts).trades.length = min ts.length N := by
  have hinv := insert_all_invariant ts (TradesLog.new N)
    (by simpa [TradesLog.new] using hN) (by simp [TradesLog.new])
    (by simp [TradesLog.new]) (by simp [TradesLog.new, CachedStats.default])
    (by simp [TradesLog.new])
  have hdrop := insert_all_trades_drop N hN ts
  have hlen : (insert_all (TradesLog.new N) ts).trades.length = min ts.length N := by
    rw [hdrop]
    simp only [List.length_drop]
    omega
  exact ⟨hdrop, hinv.2.2.1, hinv.2.2.2.1, hinv.2.2.2.2.trans hlen, hlen⟩

/-- C2, witness: the claim theorem applied at capacity 2 and the
three-trade sequence of the source's `test_insert_trade` test. -/
theorem claim_C2_witness :
    1 ≤ 2 ∧
    ((insert_all (TradesLog.new 2)
        [⟨100, 1, 0, false⟩, ⟨101, 1, 0, true⟩, ⟨102, 1, 0, false⟩]).trades
      = ([⟨100, 1, 0, false⟩, ⟨101, 1, 0, true⟩, ⟨102, 1, 0, false⟩] :
          List Trade).drop (([⟨100, 1, 0, false⟩, ⟨101, 1, 0, true⟩,
            ⟨102, 1, 0, false⟩] : List Trade).length - 2) ∧
     (insert_all (TradesLog.new 2)
        [⟨100, 1, 0, false⟩, ⟨101, 1, 0, true⟩, ⟨102, 1, 0, false⟩]).buy_volume
       + (insert_all (TradesLog.new 2)
        [⟨100, 1, 0, false⟩, ⟨101, 1, 0, true⟩, ⟨102, 1, 0, false⟩]).sell_volume
      = (((insert_all (TradesLog.new 2)
        [⟨100, 1, 0, false⟩, ⟨101, 1, 0, true⟩, ⟨102, 1, 0, false⟩]).trades).map
          Trade.quantity).sum ∧
     (insert_all (TradesLog.new 2)
        [⟨100, 1, 0, false⟩, ⟨101, 1, 0, true⟩, ⟨102, 1, 0, false⟩]).cached_stats.signed_count_momentum
      = (((insert_all (TradesLog.new 2)
        [⟨100, 1, 0, false⟩, ⟨101, 1, 0, true⟩, ⟨102, 1, 0, false⟩]).trades.filter
          (fun t => !t.is_buyer_maker)).length : ℤ)
        - (((insert_all (TradesLog.new 2)
        [⟨100, 1, 0, false⟩, ⟨101, 1, 0, true⟩, ⟨102, 1, 0, false⟩]).trades.filter
          (fun t => t.is_buyer_maker)).length : ℤ) ∧
     (insert_all (TradesLog.new 2)
        [⟨100, 1, 0, false⟩, ⟨101, 1, 0, true⟩, ⟨102, 1, 0, false⟩]).trade_count
      = min ([⟨100, 1, 0, false⟩, ⟨101, 1, 0, true⟩,
          ⟨102, 1, 0, false⟩] : List Trade).length 2 ∧
     (insert_all (TradesLog.new 2)
        [⟨100, 1, 0, false⟩, ⟨101, 1, 0, true⟩, ⟨102, 1, 0, false⟩]).trades.length
      = min ([⟨100, 1, 0, false⟩, ⟨101, 1, 0, true⟩,
          ⟨102, 1, 0, false⟩] : List Trade).length 2) :=
  ⟨by norm_num,
   claim_C2 2 (by norm_num) [⟨100, 1, 0, false⟩, ⟨101, 1, 0, true⟩, ⟨102, 1, 0, false⟩]⟩

/-! ### Claim C7 -/

theorem foldl_price_qty_sum (l : List Trade) :
    ∀ acc : ℚ × ℚ,
      l.foldl (fun (acc : ℚ × ℚ) t => (acc.1 + t.price * t.quantity, acc.2 + t.quantity)) acc
        = (acc.1 + (l.map (fun t => t.price * t.quantity)).sum,
           acc.2 + (l.map Trade.quantity).sum) := by
  induction l with
  | nil => intro acc; simp
  | cons t rest ih =>
    intro acc
    simp only [List.foldl_cons, List.map_cons, List.sum_cons, ih]
    refine Prod.ext ?_ ?_ <;> dsimp <;> ring

/-- C7, confirmed: `vwap n` fails with `InvalidWindowSize` iff `n = 0`,
with `InsufficientTrades` iff `n ≥ 1` and fewer than `n` trades are
resident, with `ZeroVolume` iff (reachable past those checks) the last
`n` resident trades have total quantity zero, and otherwise returns
`Σ price·quantity / Σ quantity` over the last `n` resident trades. -/
theorem claim_C7 (log : TradesLog) (n : ℕ) :
    (vwap log n = .error .InvalidWindowSize ↔ n = 0) ∧
    (vwap log n = .error .InsufficientTrades ↔ 1 ≤ n ∧ log.trades.length < n) ∧
    (vwap log n = .error .ZeroVolume ↔
      1 ≤ n ∧ n ≤ log.trades.length ∧
      ((log.trades.reverse.take n).map Trade.quantity).sum = 0) ∧
    (1 ≤ n → n ≤ log.trades.length →
      ((log.trades.reverse.take n).map Trade.quantity).sum ≠ 0 →
      vwap log n = .ok
        (((log.trades.reverse.take n).map (fun t => t.price * t.quantity)).sum /
          ((log.trades.reverse.take n).map Trade.quantity).sum)) := by
  simp only [vwap, foldl_price_qty_sum, zero_add]
  split_ifs with h1 h2 h3
  · refine ⟨by simp [h1], ?_, ?_, ?_⟩
    · simp only [Except.error.injEq]
      constructor
      · intro h
        cases h
      · intro ⟨hn, _⟩
        omega
    · simp only [Except.error.injEq]
      constructor
      · intro h
        cases h
      · intro ⟨hn, _⟩
        omega
    · intro hn
      omega
  · refine ⟨?_, ⟨fun _ => ⟨by omega, h2⟩, fun _ => rfl⟩, ?_, ?_⟩
    · simp only [Except.error.injEq]
      constructor
      · intro h
        cases h
      · intro h
        exact absurd h h1
    · simp only [Except.error.injEq]
      constructor
      · intro h
        cases h
      · intro ⟨_, hle, _⟩
        omega
    · intro _ hle _
      omega
  · refine ⟨?_, ?_, ?_, ?_⟩
    · simp only [Except.error.injEq]
      constructor
      · intro h
        cases h
      · intro h
        exact absurd h h1
    · simp only [Except.error.injEq]
      constructor
      · intro h
        cases h
      · intro ⟨_, hlt⟩
        omega
    · simp only [Except.error.injEq, true_iff]
      exact ⟨by omega, by omega, h3⟩
    · intro _ _ hq
      exact absurd h3 hq
  · refine ⟨by simp [h1], by simp [h2], ?_, ?_⟩
    · constructor
      · intro h
        cases h
      · intro ⟨_, _, hz⟩
        exact absurd hz h3
    · intro _ _ _
      rfl

/-- C7, witness: `vwap 0` on a one-trade log fails with
`InvalidWindowSize`, by the claim theorem's first component. -/
theorem claim_C7_witness :
    vwap (insert_all (TradesLog.new 10) [⟨100, 1, 0, false⟩]) 0
      = .error .InvalidWindowSize :=
  (claim_C7 (insert_all (TradesLog.new 10) [⟨100, 1, 0, false⟩]) 0).1.mpr rfl

/-! ### Claim C10 -/

theorem foldl_aggressor_sum (l : List Trade) :
    ∀ acc : ℚ × ℚ,
      l.foldl
        (fun (acc : ℚ × ℚ) t =>
          if t.is_buyer_maker then (acc.1, acc.2 + t.quantity)
          else (acc.1 + t.quantity, acc.2)) acc
      = (acc.1 + ((l.filter (fun t => !t.is_buyer_maker)).map Trade.quantity).sum,
         acc.2 + ((l.filter (fun t => t.is_buyer_maker)).map Trade.quantity).sum) := by
  induction l with
  | nil => intro acc; simp
  | cons t rest ih =>
    intro acc
    cases htm : t.is_buyer_maker <;>
      simp only [List.foldl_cons, List.filter_cons, htm, Bool.not_true, Bool.not_false,
        Bool.false_eq_true, if_false, if_true, List.map_cons, List.sum_cons, ih] <;>
      refine Prod.ext ?_ ?_ <;> dsimp <;> ring

/-- C10, confirmed: on a non-empty log and `n ≥ 1`,
`aggressor_volume_ratio n` never fails with `InsufficientTrades` even
when fewer than `n` trades are resident: it works over the last
`min(n, resident)` trades, fails with `ZeroVolume` exactly when their
total volume is zero, and otherwise returns buyer-taker volume
(trades with `is_buyer_maker = false`) divided by total volume. -/
theorem claim_C10 (log : TradesLog) (n : ℕ)
    (hne : log.trades ≠ []) (hn : 1 ≤ n) :
    ( aggressor_volume_ratio log n ≠ .error .InsufficientTrades) ∧
    (log.trades.reverse.take n).length = min n log.trades.length ∧
    ( aggressor_volume_ratio log n = .error .ZeroVolume ↔
      (((log.trades.reverse.take n).filter (fun t => !t.is_buyer_maker)).map
          Trade.quantity).sum
        + (((log.trades.reverse.take n).filter (fun t => t.is_buyer_maker)).map
          Trade.quantity).sum = 0) ∧
    ((((log.trades.reverse.take n).filter (fun t => !t.is_buyer_maker)).map
          Trade.quantity).sum
        + (((log.trades.reverse.take n).filter (fun t => t.is_buyer_maker)).map
          Trade.quantity).sum ≠ 0 →
       aggressor_volume_ratio log n = .ok
        ((((log.trades.reverse.take n).filter (fun t => !t.is_buyer_maker)).map
            Trade.quantity).sum /
         ((((log.trades.reverse.take n).filter (fun t => !t.is_buyer_maker)).map
            Trade.quantity).sum
          + (((log.trades.reverse.take n).filter (fun t => t.is_buyer_maker)).map
            Trade.quantity).sum))) := by
  have hn0 : ¬ n = 0 := by omega
  simp only [aggressor_volume_ratio, if_neg hn0, if_neg hne, foldl_aggressor_sum, zero_add]
  refine ⟨?_, ?_, ?_, ?_⟩
  · split_ifs <;> intro h <;> cases h
  · simp [List.length_take]
  · split_ifs with hz
    · simp only [Except.error.injEq, true_iff]
      exact hz
    · constructor
      · intro h
        cases h
      · intro h
        exact absurd h hz
  · intro hz
    rw [if_neg hz]

/-- C10, witness: the claim theorem at a two-trade log with
`n = 5 > 2` resident trades: no `InsufficientTrades` failure. -/
theorem claim_C10_witness :
    aggressor_volume_ratio
      (insert_all (TradesLog.new 10) [⟨100, 1, 0, false⟩, ⟨101, 2, 0, true⟩]) 5
      ≠ .error .InsufficientTrades :=
  (claim_C10 (insert_all (TradesLog.new 10) [⟨100, 1, 0, false⟩, ⟨101, 2, 0, true⟩]) 5
    (by decide) (by norm_num)).1

/-! ### Claim C8 -/

/-- C8, confirmed: whenever `buy_volume + sell_volume > 0` (with the
volumes agreeing with the resident trades, which C2 shows holds in every
reachable state), the refreshed `vwap_total` equals the price of the
most recent resident trade, because it is computed as
`(buy_volume + sell_volume) · last_price / total_volume`; when the total
volume is zero it is `none`. -/
theorem claim_C8 (log : TradesLog) (hd : log.stats_dirty = true)
    (hvol : log.buy_volume + log.sell_volume = (log.trades.map Trade.quantity).sum) :
    (0 < log.buy_volume + log.sell_volume →
      (update_cached_stats log).cached_stats.vwap_total = last_price log) ∧
    (log.buy_volume + log.sell_volume = 0 →
      (update_cached_stats log).cached_stats.vwap_total = none) := by
  constructor
  · intro hpos
    have hne : log.trades ≠ [] := by
      intro h
      rw [h] at hvol
      simp only [List.map_nil, List.sum_nil] at hvol
      rw [hvol] at hpos
      exact lt_irrefl 0 hpos
    obtain ⟨tl, htl⟩ : ∃ tl, log.trades.getLast? = some tl := by
      cases hc : log.trades.getLast? with
      | none => exact absurd (List.getLast?_eq_none_iff.mp hc) hne
      | some tl => exact ⟨tl, rfl⟩
    simp only [update_cached_stats, hd, Bool.not_true, Bool.false_eq_true, if_false,
      if_pos hpos, htl, Option.map_some', Option.getD_some]
    rw [last_price, htl, Option.map_some']
    congr 1
    rw [mul_comm, mul_div_assoc, div_self (ne_of_gt hpos), mul_one]
  · intro hzero
    have hneg : ¬ (0 : ℚ) < log.buy_volume + log.sell_volume := by
      rw [hzero]
      exact lt_irrefl 0
    simp only [update_cached_stats, hd, Bool.not_true, Bool.false_eq_true, if_false,
      if_neg hneg]

/-- C8, witness: the claim theorem at a freshly inserted one-trade log
with positive volume — the refreshed `vwap_total` is the last price. -/
theorem claim_C8_witness :
    (update_cached_stats
        (insert_all (TradesLog.new 10) [⟨100, 1, 0, false⟩])).cached_stats.vwap_total
      = last_price (insert_all (TradesLog.new 10) [⟨100, 1, 0, false⟩]) :=
  (claim_C8 (insert_all (TradesLog.new 10) [⟨100, 1, 0, false⟩])
    (by rfl) (by norm_num [insert_all, insert_trade, TradesLog.new])).1
    (by norm_num [insert_all, insert_trade, TradesLog.new])

/-! ### Claim C3 -/

theorem le_getLast_of_pairwise :
    ∀ {l : List (ℚ × ℚ)}, l.Pairwise keyLT →
      ∀ {m : ℚ × ℚ}, l.getLast? = some m → ∀ x ∈ l, x.1 ≤ m.1 := by
  intro l
  induction l with
  | nil => intro _ m hm; cases hm
  | cons a rest ih =>
    intro h m hm x hx
    rw [List.pairwise_cons] at h
    obtain ⟨ha, hrest⟩ := h
    cases hrest2 : rest with
    | nil =>
      subst hrest2
      simp only [List.getLast?_singleton, Option.some.injEq] at hm
      subst hm
      rcases List.mem_singleton.mp hx with rfl
      exact le_refl _
    | cons b rest2 =>
      have hm2 : rest.getLast? = some m := by
        rw [hrest2] at hm ⊢
        simpa using hm
      have hmem : m ∈ rest := List.mem_of_mem_getLast? hm2
      rcases List.mem_cons.mp hx with rfl | hx2
      · exact le_of_lt (ha m hmem)
      · exact ih hrest hm2 x hx2

theorem head_le_of_pairwise {l : List (ℚ × ℚ)} (h : l.Pairwise keyLT)
    {m : ℚ × ℚ} (hm : l.head? = some m) : ∀ x ∈ l, m.1 ≤ x.1 := by
  cases l with
  | nil => cases hm
  | cons a rest =>
    rw [List.head?_cons, Option.some.injEq] at hm
    subst hm
    rw [List.pairwise_cons] at h
    intro x hx
    rcases List.mem_cons.mp hx with rfl | hx2
    · exact le_refl _
    · exact le_of_lt (h.1 x hx2)

theorem apply_delta_bid_inv (now : ℚ) (book : OrderBook) (pq : ℚ × ℚ)
    (h : book.bids.Pairwise keyLT) :
    (apply_delta_bid now book pq).bids.Pairwise keyLT ∧
    (apply_delta_bid now book pq).asks = book.asks := by
  rw [apply_delta_bid]
  split_ifs
  · exact ⟨pairwise_eraseKey h, rfl⟩
  · exact ⟨h, rfl⟩
  · exact ⟨pairwise_insertSorted h, rfl⟩

theorem apply_delta_ask_inv (now : ℚ) (book : OrderBook) (pq : ℚ × ℚ)
    (h : book.asks.Pairwise keyLT) :
    (apply_delta_ask now book pq).asks.Pairwise keyLT ∧
    (apply_delta_ask now book pq).bids = book.bids := by
  rw [apply_delta_ask]
  split_ifs
  · exact ⟨pairwise_eraseKey h, rfl⟩
  · exact ⟨h, rfl⟩
  · exact ⟨pairwise_insertSorted h, rfl⟩

theorem foldl_delta_bid_inv (now : ℚ) (pqs : List (ℚ × ℚ)) :
    ∀ book : OrderBook, book.bids.Pairwise keyLT →
      (pqs.foldl (apply_delta_bid now) book).bids.Pairwise keyLT ∧
      (pqs.foldl (apply_delta_bid now) book).asks = book.asks := by
  induction pqs with
  | nil => intro book h; exact ⟨h, rfl⟩
  | cons pq rest ih =>
    intro book h
    simp only [List.foldl_cons]
    have hstep := apply_delta_bid_inv now book pq h
    have hrec := ih (apply_delta_bid now book pq) hstep.1
    exact ⟨hrec.1, hrec.2.trans hstep.2⟩

theorem foldl_delta_ask_inv (now : ℚ) (pqs : List (ℚ × ℚ)) :
    ∀ book : OrderBook, book.asks.Pairwise keyLT →
      (pqs.foldl (apply_delta_ask now) book).asks.Pairwise keyLT ∧
      (pqs.foldl (apply_delta_ask now) book).bids = book.bids := by
  induction pqs with
  | nil => intro book h; exact ⟨h, rfl⟩
  | cons pq rest ih =>
    intro book h
    simp only [List.foldl_cons]
    have hstep := apply_delta_ask_inv now book pq h
    have hrec := ih (apply_delta_ask now book pq) hstep.1
    exact ⟨hrec.1, hrec.2.trans hstep.2⟩

theorem apply_snapshot_inv (book : OrderBook) (bids asks : List (ℚ × ℚ)) :
    (apply_snapshot book bids asks).bids.Pairwise keyLT ∧
    (apply_snapshot book bids asks).asks.Pairwise keyLT ∧
    (apply_snapshot book bids asks).best_bid
      = (apply_snapshot book bids asks).bids.getLast?.map Prod.fst ∧
    (apply_snapshot book bids asks).best_ask
      = (apply_snapshot book bids asks).asks.head?.map Prod.fst := by
  refine ⟨?_, ?_, rfl, rfl⟩
  · exact pairwise_foldl_filtered_insert _ bids [] List.Pairwise.nil
  · exact pairwise_foldl_filtered_insert _ asks [] List.Pairwise.nil

theorem apply_deltas_inv (now : ℚ) (book : OrderBook) (bids asks : List (ℚ × ℚ))
    (hb : book.bids.Pairwise keyLT) (ha : book.asks.Pairwise keyLT) :
    (apply_deltas now book bids asks).bids.Pairwise keyLT ∧
    (apply_deltas now book bids asks).asks.Pairwise keyLT ∧
    (apply_deltas now book bids asks).best_bid
      = (apply_deltas now book bids asks).bids.getLast?.map Prod.fst ∧
    (apply_deltas now book bids asks).best_ask
      = (apply_deltas now book bids asks).asks.head?.map Prod.fst := by
  have h1 := foldl_delta_bid_inv now bids book hb
  have h2 := foldl_delta_ask_inv now asks (bids.foldl (apply_delta_bid now) book)
    (by rw [h1.2]; exact ha)
  rw [apply_deltas]
  refine ⟨?_, ?_, rfl, rfl⟩
  · rw [update_best_bid_ask]
    dsimp only
    rw [h2.2]
    exact h1.1
  · rw [update_best_bid_ask]
    dsimp only
    exact h2.1

theorem runOps_inv (ops : List BookOp) :
    ∀ book : OrderBook,
      book.bids.Pairwise keyLT → book.asks.Pairwise keyLT →
      book.best_bid = book.bids.getLast?.map Prod.fst →
      book.best_ask = book.asks.head?.map Prod.fst →
      (runOps book ops).bids.Pairwise keyLT ∧
      (runOps book ops).asks.Pairwise keyLT ∧
      (runOps book ops).best_bid = (runOps book ops).bids.getLast?.map Prod.fst ∧
      (runOps book ops).best_ask = (runOps book ops).asks.head?.map Prod.fst := by
  induction ops with
  | nil => intro book h1 h2 h3 h4; exact ⟨h1, h2, h3, h4⟩
  | cons op rest ih =>
    intro book h1 h2 h3 h4
    simp only [runOps, List.foldl_cons] at *
    cases op with
    | snapshot bids asks =>
      have hs := apply_snapshot_inv book bids asks
      exact ih _ hs.1 hs.2.1 hs.2.2.1 hs.2.2.2
    | deltas now bids asks =>
      have hs := apply_deltas_inv now book bids asks h1 h2
      exact ih _ hs.1 hs.2.1 hs.2.2.1 hs.2.2.2

/-- C3, confirmed: after any sequence of `apply_snapshot`/`apply_deltas`
calls from the empty book (each of which ends by recomputing the
caches), `best_bid` is `none` iff the bids map is empty and is `some p`
iff `p` is the maximum bid key; symmetrically `best_ask` is the minimum
ask key, `none` when the asks map is empty. -/
theorem claim_C3 (ops : List BookOp) :
    ((runOps OrderBook.new ops).best_bid = none ↔ (runOps OrderBook.new ops).bids = []) ∧
    (∀ p, (runOps OrderBook.new ops).best_bid = some p ↔
      (p ∈ (runOps OrderBook.new ops).bids.map Prod.fst ∧
       ∀ k ∈ (runOps OrderBook.new ops).bids.map Prod.fst, k ≤ p)) ∧
    ((runOps OrderBook.new ops).best_ask = none ↔ (runOps OrderBook.new ops).asks = []) ∧
    (∀ p, (runOps OrderBook.new ops).best_ask = some p ↔
      (p ∈ (runOps OrderBook.new ops).asks.map Prod.fst ∧
       ∀ k ∈ (runOps OrderBook.new ops).asks.map Prod.fst, p ≤ k)) := by
  have hinv := runOps_inv ops OrderBook.new List.Pairwise.nil List.Pairwise.nil rfl rfl
  obtain ⟨hb, ha, hbb, hba⟩ := hinv
  refine ⟨?_, ?_, ?_, ?_⟩
  · rw [hbb, Option.map_eq_none', List.getLast?_eq_none_iff]
  · intro p
    constructor
    · intro hp
      rw [hbb] at hp
      obtain ⟨m, hm, hmp⟩ := Option.map_eq_some'.mp hp
      have hmem := List.mem_of_mem_getLast? hm
      subst hmp
      refine ⟨List.mem_map_of_mem _ hmem, ?_⟩
      intro k hk
      obtain ⟨x, hx, hxk⟩ := List.mem_map.mp hk
      subst hxk
      exact le_getLast_of_pairwise hb hm x hx
    · intro ⟨hpmem, hpmax⟩
      obtain ⟨x, hx, hxp⟩ := List.mem_map.mp hpmem
      have hne : (runOps OrderBook.new ops).bids ≠ [] := by
        intro hnil
        rw [hnil] at hx
        cases hx
      obtain ⟨m, hm⟩ : ∃ m, (runOps OrderBook.new ops).bids.getLast? = some m := by
        cases hc : (runOps OrderBook.new ops).bids.getLast? with
        | none => exact absurd (List.getLast?_eq_none_iff.mp hc) hne
        | some m => exact ⟨m, rfl⟩
      have h1 : m.1 ≤ p := hpmax m.1 (List.mem_map_of_mem _ (List.mem_of_mem_getLast? hm))
      have h2 : p ≤ m.1 := by
        rw [← hxp]
        exact le_getLast_of_pairwise hb hm x hx
      rw [hbb, hm, Option.map_some']
      exact congrArg some (le_antisymm h1 h2)
  · rw [hba, Option.map_eq_none', List.head?_eq_none_iff]
  · intro p
    constructor
    · intro hp
      rw [hba] at hp
      obtain ⟨m, hm, hmp⟩ := Option.map_eq_some'.mp hp
      have hmem := List.mem_of_mem_head? hm
      subst hmp
      refine ⟨List.mem_map_of_mem _ hmem, ?_⟩
      intro k hk
      obtain ⟨x, hx, hxk⟩ := List.mem_map.mp hk
      subst hxk
      exact head_le_of_pairwise ha hm x hx
    · intro ⟨hpmem, hpmin⟩
      obtain ⟨x, hx, hxp⟩ := List.mem_map.mp hpmem
      have hne : (runOps OrderBook.new ops).asks ≠ [] := by
        intro hnil
        rw [hnil] at hx
        cases hx
      obtain ⟨m, hm⟩ : ∃ m, (runOps OrderBook.new ops).asks.head? = some m := by
        cases hc : (runOps OrderBook.new ops).asks.head? with
        | none => exact absurd (List.head?_eq_none_iff.mp hc) hne
        | some m => exact ⟨m, rfl⟩
      have h1 : p ≤ m.1 := hpmin m.1 (List.mem_map_of_mem _ (List.mem_of_mem_head? hm))
      have h2 : m.1 ≤ p := by
        rw [← hxp]
        exact head_le_of_pairwise ha hm x hx
      rw [hba, hm, Option.map_some']
      exact congrArg some (le_antisymm h2 h1)

/-! ### Claim C4 -/

theorem update_best_bid_ask_id {book : OrderBook}
    (hbb : book.best_bid = book.bids.getLast?.map Prod.fst)
    (hba : book.best_ask = book.asks.head?.map Prod.fst) :
    update_best_bid_ask book = book := by
  cases book with
  | mk bids asks bb ba tr =>
    dsimp only at hbb hba
    simp only [update_best_bid_ask, OrderBook.mk.injEq, true_and, and_true]
    exact ⟨hbb.symm, hba.symm⟩

/-- C4, confirmed: on a well-formed book (sorted sides, caches
consistent — true of every reachable state by C3's invariant),
`apply_deltas` with the single bid pair `(p, 0)` and no asks removes `p`
from the bids map when `p` is present and leaves the book entirely
unchanged when it is absent; the flow tracker records exactly one
`BidCancel` (appended after the usual pruning) iff the removal occurred,
and a non-zero-quantity bid delta stores the quantity and records one
`BidOrder q`; symmetrically on the ask side with `AskCancel`/`AskOrder`. -/
theorem claim_C4 (book : OrderBook) (now p : ℚ)
    (hbs : book.bids.Pairwise keyLT) (hask : book.asks.Pairwise keyLT)
    (hbb : book.best_bid = book.bids.getLast?.map Prod.fst)
    (hba : book.best_ask = book.asks.head?.map Prod.fst) :
    (lookupKey p book.bids = none → apply_deltas now book [(p, 0)] [] = book) ∧
    (lookupKey p book.bids ≠ none →
      (apply_deltas now book [(p, 0)] []).bids = eraseKey p book.bids ∧
      lookupKey p ((apply_deltas now book [(p, 0)] []).bids) = none ∧
      (apply_deltas now book [(p, 0)] []).asks = book.asks ∧
      (apply_deltas now book [(p, 0)] []).flow_tracker.events
        = (prune_old now book.flow_tracker).events ++ [(now, .BidCancel)]) ∧
    (∀ q : ℚ, q ≠ 0 →
      (apply_deltas now book [(p, q)] []).bids = insertSorted p q book.bids ∧
      (apply_deltas now book [(p, q)] []).flow_tracker.events
        = (prune_old now book.flow_tracker).events ++ [(now, .BidOrder q)]) ∧
    (lookupKey p book.asks = none → apply_deltas now book [] [(p, 0)] = book) ∧
    (lookupKey p book.asks ≠ none →
      (apply_deltas now book [] [(p, 0)]).asks = eraseKey p book.asks ∧
      lookupKey p ((apply_deltas now book [] [(p, 0)]).asks) = none ∧
      (apply_deltas now book [] [(p, 0)]).bids = book.bids ∧
      (apply_deltas now book [] [(p, 0)]).flow_tracker.events
        = (prune_old now book.flow_tracker).events ++ [(now, .AskCancel)]) ∧
    (∀ q : ℚ, q ≠ 0 →
      (apply_deltas now book [] [(p, q)]).asks = insertSorted p q book.asks ∧
      (apply_deltas now book [] [(p, q)]).flow_tracker.events
        = (prune_old now book.flow_tracker).events ++ [(now, .AskOrder q)]) := by
  refine ⟨?_, ?_, ?_, ?_, ?_, ?_⟩
  · intro habs
    simp only [apply_deltas, List.foldl_cons, List.foldl_nil, apply_delta_bid, containsKey,
      habs, Option.isSome_none, Bool.false_eq_true, if_false, if_pos rfl]
    exact update_best_bid_ask_id hbb hba
  · intro hpres
    have hcont : containsKey p book.bids = true := by
      rw [containsKey, Option.isSome_iff_ne_none]
      exact hpres
    simp only [apply_deltas, List.foldl_cons, List.foldl_nil, apply_delta_bid, hcont,
      if_pos rfl, if_true]
    exact ⟨rfl, lookupKey_eraseKey_self hbs, rfl, rfl⟩
  · intro q hq
    simp only [apply_deltas, List.foldl_cons, List.foldl_nil, apply_delta_bid,
      if_neg hq]
    exact ⟨rfl, rfl⟩
  · intro habs
    simp only [apply_deltas, List.foldl_cons, List.foldl_nil, apply_delta_ask, containsKey,
      habs, Option.isSome_none, Bool.false_eq_true, if_false, if_pos rfl]
    exact update_best_bid_ask_id hbb hba
  · intro hpres
    have hcont : containsKey p book.asks = true := by
      rw [containsKey, Option.isSome_iff_ne_none]
      exact hpres
    simp only [apply_deltas, List.foldl_cons, List.foldl_nil, apply_delta_ask, hcont,
      if_pos rfl, if_true]
    exact ⟨rfl, lookupKey_eraseKey_self hask, rfl, rfl⟩
  · intro q hq
    simp only [apply_deltas, List.foldl_cons, List.foldl_nil, apply_delta_ask,
      if_neg hq]
    exact ⟨rfl, rfl⟩

/-- C4, witness: the claim theorem on the concrete book of the spec's
scenario S1/S2 — deleting the resident bid level 100 removes it and
appends exactly one `BidCancel` to the tracker. -/
theorem claim_C4_witness :
    lookupKey 100 (apply_snapshot OrderBook.new [(100, 1), (99, 2)] [(101, 1)]).bids ≠ none ∧
    ((apply_deltas 5 (apply_snapshot OrderBook.new [(100, 1), (99, 2)] [(101, 1)])
        [(100, 0)] []).bids
      = eraseKey 100 (apply_snapshot OrderBook.new [(100, 1), (99, 2)] [(101, 1)]).bids ∧
     lookupKey 100 ((apply_deltas 5 (apply_snapshot OrderBook.new
        [(100, 1), (99, 2)] [(101, 1)]) [(100, 0)] []).bids) = none ∧
     (apply_deltas 5 (apply_snapshot OrderBook.new [(100, 1), (99, 2)] [(101, 1)])
        [(100, 0)] []).asks
      = (apply_snapshot OrderBook.new [(100, 1), (99, 2)] [(101, 1)]).asks ∧
     (apply_deltas 5 (apply_snapshot OrderBook.new [(100, 1), (99, 2)] [(101, 1)])
        [(100, 0)] []).flow_tracker.events
      = (prune_old 5 (apply_snapshot OrderBook.new
          [(100, 1), (99, 2)] [(101, 1)]).flow_tracker).events ++ [(5, .BidCancel)]) :=
  have hinv := apply_snapshot_inv OrderBook.new [(100, 1), (99, 2)] [(101, 1)]
  have hpres : lookupKey 100
      (apply_snapshot OrderBook.new [(100, 1), (99, 2)] [(101, 1)]).bids ≠ none := by
    decide
  ⟨hpres,
   (claim_C4 (apply_snapshot OrderBook.new [(100, 1), (99, 2)] [(101, 1)]) 5 100
      hinv.1 hinv.2.1 hinv.2.2.1 hinv.2.2.2).2.1 hpres⟩

/-! ### Claim C9 -/

/-- C9, code bug.  `cumulative_volume_up_to` iterates the chosen map
with `map.iter()` — ascending key order on both sides — and `take_while`
therefore stops at the first (lowest) bid price that fails `p ≥ price`.
On the book with bids `{10 ↦ 1, 20 ↦ 2}`, querying price 15 on the bid
side returns 0, while the best-inward walk of the claim (and of the
function's own doc comment, "Cumulative volume from price level and
inwards") collects the bid at 20 and returns 2.  The ask side, where
ascending order *is* best-inward, agrees with the claim. -/
theorem claim_C9_eval :
    cumulative_volume_up_to (apply_snapshot OrderBook.new [(10, 1), (20, 2)] []) 15 true = 0 ∧
    cumulative_volume_up_to_spec (apply_snapshot OrderBook.new [(10, 1), (20, 2)] []) 15 true = 2 ∧
    cumulative_volume_up_to (apply_snapshot OrderBook.new [] [(10, 1), (20, 2)]) 15 false = 1 ∧
    cumulative_volume_up_to_spec (apply_snapshot OrderBook.new [] [(10, 1), (20, 2)]) 15 false = 1 := by
  have hb : (apply_snapshot OrderBook.new [(10, 1), (20, 2)] []).bids
      = [(10, 1), (20, 2)] := by
    decide
  have ha : (apply_snapshot OrderBook.new [] [(10, 1), (20, 2)]).asks
      = [(10, 1), (20, 2)] := by
    decide
  refine ⟨?_, ?_, ?_, ?_⟩
  · simp [cumulative_volume_up_to, hb, List.takeWhile]
    norm_num
  · simp [cumulative_volume_up_to_spec, hb, List.takeWhile]
    norm_num
  · simp [cumulative_volume_up_to, ha, List.takeWhile]
    norm_num
  · simp [cumulative_volume_up_to_spec, ha, List.takeWhile]
    norm_num

end Ingestor
